import Mathlib

/-!
Verification of the derivation-path component of the secp256k1 HD-wallet
repository.  The Go source (`ParseDerivationPath`, `DerivationPath.String`,
`MarshalJSON`/`UnmarshalJSON`, `DeriveKey`) is embedded shallowly over
`List Char` and `Nat`.  Library routines that the source calls
(`strings.Split`, `strings.TrimSpace`, `big.Int.SetString` with base 0,
`encoding/json` string encoding) are embedded from their documented Go
semantics, since the source delegates to them directly.
-/

/-- Apostrophe character (code 39), the hardened marker in path strings. -/
def tick : Char := Char.ofNat 39

/-- Double-quote character (code 34), the JSON string delimiter. -/
def quoteChar : Char := Char.ofNat 34

/-- Backslash character (code 92), the JSON escape character. -/
def backslashChar : Char := Char.ofNat 92

/-- Go `unicode.IsSpace`: the Unicode White_Space code points. -/
def isGoSpace (c : Char) : Bool :=
  decide ((9 ≤ c.toNat ∧ c.toNat ≤ 13) ∨ c.toNat = 32 ∨ c.toNat = 133 ∨ c.toNat = 160 ∨
    c.toNat = 5760 ∨ (8192 ≤ c.toNat ∧ c.toNat ≤ 8202) ∨ c.toNat = 8232 ∨ c.toNat = 8233 ∨
    c.toNat = 8239 ∨ c.toNat = 8287 ∨ c.toNat = 12288)

/-- Go `strings.TrimSpace`: drop leading and trailing white space. -/
def trimSpace (s : List Char) : List Char :=
  ((s.dropWhile isGoSpace).reverse.dropWhile isGoSpace).reverse

/-- Go `strings.Split(path, "/")`: split around each `/`; the result is
never empty (splitting the empty string yields one empty component). -/
def splitSlash : List Char → List (List Char)
  | [] => [[]]
  | c :: rest =>
    if c = '/' then [] :: splitSlash rest
    else
      match splitSlash rest with
      | [] => [[c]]
      | r :: rs => (c :: r) :: rs

/-- Digit value of a character as in Go `math/big` scanning: `0`-`9`,
then letters (case-insensitive for bases up to 36); `none` for
characters that are no digit at all. -/
def dval (c : Char) : Option Nat :=
  if 48 ≤ c.toNat ∧ c.toNat ≤ 57 then some (c.toNat - 48)
  else if 97 ≤ c.toNat ∧ c.toNat ≤ 122 then some (c.toNat - 87)
  else if 65 ≤ c.toNat ∧ c.toNat ≤ 90 then some (c.toNat - 55)
  else none

/-- Digit loop of Go `math/big`'s `nat.scan` for an integer base `b` with
base auto-detection active (base argument 0): consumes digits and legally
placed `_` separators, stops in front of the first character that is not a
digit below `b`, and fails (`none`) on a misplaced separator.  Returns the
accumulated value, the digit count, the last-seen-character class (`'0'`
for a digit, `'_'` for a separator, unchanged otherwise) and the
unconsumed remainder. -/
def scanLoop (b : Nat) : List Char → Nat → Nat → Char → Option (Nat × Nat × Char × List Char)
  | [], acc, count, prev => some (acc, count, prev, [])
  | c :: cs, acc, count, prev =>
    if c = '_' then
      if prev = '0' then scanLoop b cs acc count '_' else none
    else
      match dval c with
      | some d =>
        if d < b then scanLoop b cs (acc * b + d) (count + 1) '0'
        else some (acc, count, prev, c :: cs)
      | none => some (acc, count, prev, c :: cs)

/-- End-of-scan checks of Go `big.Int.SetString`: at least one digit, no
trailing separator, and the whole string consumed. -/
def scanFinish : Option (Nat × Nat × Char × List Char) → Option Nat
  | none => none
  | some (acc, count, prev, rest) =>
    if count = 0 then none
    else if prev = '_' then none
    else if rest = [] then some acc
    else none

/-- Magnitude scan of Go `big.Int.SetString(s, 0)`: base auto-detection
(`0b`/`0B` binary, `0o`/`0O` octal, `0x`/`0X` hexadecimal, a remaining
leading `0` octal with that zero already counting as a digit, otherwise
decimal), then the digit loop. -/
def natScan0 : List Char → Option Nat
  | [] => none
  | c :: rest =>
    if c = '0' then
      match rest with
      | [] => some 0
      | c2 :: rest2 =>
        if c2 = 'b' ∨ c2 = 'B' then scanFinish (scanLoop 2 rest2 0 0 '0')
        else if c2 = 'o' ∨ c2 = 'O' then scanFinish (scanLoop 8 rest2 0 0 '0')
        else if c2 = 'x' ∨ c2 = 'X' then scanFinish (scanLoop 16 rest2 0 0 '0')
        else scanFinish (scanLoop 8 (c2 :: rest2) 0 1 '0')
    else scanFinish (scanLoop 10 (c :: rest) 0 0 '.')

/-- Go `new(big.Int).SetString(s, 0)`: optional sign followed by the
magnitude with base auto-detection; the whole string must be consumed. -/
def setString0 (s : List Char) : Option Int :=
  match s with
  | [] => none
  | c :: rest =>
    if c = '-' then (natScan0 rest).map (fun n => -(n : Int))
    else if c = '+' then (natScan0 rest).map (fun n => (n : Int))
    else (natScan0 (c :: rest)).map (fun n => (n : Int))

/-- Errors of `ParseDerivationPath`, one constructor per distinct error
produced by the source (`errors.New` / `fmt.Errorf` values). -/
inductive ParseError where
  | emptyPath : ParseError
  | ambiguousPath : ParseError
  | missingBasePath : ParseError
  | invalidComponent : List Char → ParseError
  | componentOutOfRange : Int → Nat → Bool → ParseError
deriving DecidableEq

/-- The repository's `DerivationPath`: a `[]uint32` of path indices,
embedded as a list of naturals (each below `2 ^ 32` in any value the Go
type can hold). -/
abbrev DerivationPath := List Nat

/-- Whether a component (after the initial trim of the loop body) carries
the trailing hardened apostrophe, as tested by `strings.HasSuffix`. -/
def componentHardened (comp : List Char) : Bool :=
  decide ((trimSpace comp).getLast? = some tick)

/-- The numeric text of a component handed to `SetString`: the trimmed
component, with the apostrophe stripped and the remainder re-trimmed when
the component is hardened. -/
def componentBody (comp : List Char) : List Char :=
  if (trimSpace comp).getLast? = some tick then trimSpace (trimSpace comp).dropLast
  else trimSpace comp

/-- Loop body of `ParseDerivationPath` for one component: detect the
hardened suffix, parse the numeric text with base auto-detection, enforce
the range ceiling `2^32 - 1 - offset`, and add the hardened offset.  The
`uint32` conversions of the source are the explicit `% 2^64 % 2^32`
reductions. -/
def parseComponent (comp : List Char) : Except ParseError Nat :=
  let offset : Nat := if componentHardened comp then 2 ^ 31 else 0
  match setString0 (componentBody comp) with
  | none => .error (.invalidComponent (componentBody comp))
  | some v =>
    if v < 0 ∨ ((2 ^ 32 - 1 - offset : Nat) : Int) < v then
      .error (.componentOutOfRange v (2 ^ 32 - 1 - offset) (decide (offset ≠ 0)))
    else
      .ok ((offset + v.toNat % 2 ^ 64 % 2 ^ 32) % 2 ^ 32)

/-- The component loop of `ParseDerivationPath`: parse each component in
order, stopping at the first error. -/
def parseComponents : List (List Char) → Except ParseError (List Nat)
  | [] => .ok []
  | c :: cs =>
    match parseComponent c with
    | .error e => .error e
    | .ok v =>
      match parseComponents cs with
      | .error e => .error e
      | .ok vs => .ok (v :: vs)

/-- Tail of `ParseDerivationPath` after path classification: reject an
empty component list, then append the parsed components to the already
accumulated result. -/
def appendComponents (result : DerivationPath) (components : List (List Char)) :
    Except ParseError DerivationPath :=
  if components = [] then .error .emptyPath
  else (parseComponents components).map (fun vs => result ++ vs)

/-- Classification switch of `ParseDerivationPath` applied to the split
components: empty split is an empty path, an empty (after trimming) first
component is ambiguous, a first component `m` starts an absolute path, and
anything else is relative and requires a base path. -/
def classifyParse (components : List (List Char)) (base : List DerivationPath) :
    Except ParseError DerivationPath :=
  match components with
  | [] => .error .emptyPath
  | c0 :: rest =>
    if trimSpace c0 = [] then .error .ambiguousPath
    else if trimSpace c0 = ['m'] then appendComponents [] rest
    else
      match base with
      | b :: _ => appendComponents b (c0 :: rest)
      | [] => .error .missingBasePath

/-- Go `ParseDerivationPath(path string, base ...DerivationPath)`: split on
`/`, classify, then parse the remaining components. -/
def ParseDerivationPath (path : List Char) (base : List DerivationPath) :
    Except ParseError DerivationPath :=
  classifyParse (splitSlash path) base

/-- Decimal digit character, for the `%d` formatting of `String`. -/
def decDigit (d : Nat) : Char :=
  match d with
  | 0 => '0' | 1 => '1' | 2 => '2' | 3 => '3' | 4 => '4'
  | 5 => '5' | 6 => '6' | 7 => '7' | 8 => '8' | 9 => '9'
  | _ => '?'

/-- Decimal representation of a natural number without leading zeros, the
output of Go's `fmt.Sprintf("%d", n)` for a `uint32`. -/
def decRepr (n : Nat) : List Char :=
  if _h : n < 10 then [decDigit n]
  else decRepr (n / 10) ++ [decDigit (n % 10)]
termination_by n
decreasing_by exact Nat.div_lt_self (by omega) (by omega)

/-- Text of one path index in the canonical form: hardened indices (high
bit set) print their 31-bit value followed by the apostrophe. -/
def compText (component : Nat) : List Char :=
  if 2 ^ 31 ≤ component then decRepr (component - 2 ^ 31) ++ [tick]
  else decRepr component

/-- Concatenation of path segments, each preceded by `/`. -/
def segsCat : List (List Char) → List Char
  | [] => []
  | b :: bs => '/' :: b ++ segsCat bs

/-- Go `DerivationPath.String`: the canonical text, `m` followed by one
`/`-prefixed decimal segment per index. -/
def DerivationPath.String (path : DerivationPath) : List Char :=
  'm' :: segsCat (path.map compText)

/-- Lower-case hexadecimal digit character, for JSON `\u` escapes. -/
def hexDigitChar (d : Nat) : Char :=
  if d < 10 then decDigit d
  else match d with
    | 10 => 'a' | 11 => 'b' | 12 => 'c' | 13 => 'd' | 14 => 'e' | 15 => 'f'
    | _ => '?'

/-- Escaping of one character by Go `encoding/json` (HTML escaping on, as
`json.Marshal` uses): quote, backslash, newline, carriage return and tab
get two-character escapes; other control characters and `<`, `>`, `&` get
`\u00xx`; U+2028 and U+2029 get `\u202x`; everything else is literal. -/
def escapeChar (c : Char) : List Char :=
  let n := c.toNat
  if n = 34 then [backslashChar, quoteChar]
  else if n = 92 then [backslashChar, backslashChar]
  else if n = 10 then [backslashChar, 'n']
  else if n = 13 then [backslashChar, 'r']
  else if n = 9 then [backslashChar, 't']
  else if n < 32 ∨ n = 60 ∨ n = 62 ∨ n = 38 then
    [backslashChar, 'u', '0', '0', hexDigitChar (n / 16), hexDigitChar (n % 16)]
  else if n = 8232 ∨ n = 8233 then
    [backslashChar, 'u', '2', '0', '2', hexDigitChar (n % 16)]
  else [c]

/-- Escape every character of a string body. -/
def escAll : List Char → List Char
  | [] => []
  | c :: cs => escapeChar c ++ escAll cs

/-- Go `json.Marshal` of a string: the escaped body between quotes. -/
def jsonQuote (s : List Char) : List Char :=
  quoteChar :: escAll s ++ [quoteChar]

/-- JSON insignificant white space. -/
def isJsonSpace (c : Char) : Bool :=
  c.toNat = 32 || c.toNat = 9 || c.toNat = 10 || c.toNat = 13

/-- Hexadecimal digit value for `\u` escapes. -/
def hexVal (c : Char) : Option Nat :=
  match dval c with
  | some d => if d < 16 then some d else none
  | none => none

/-- Body loop of Go `encoding/json` string decoding: plain characters
(control characters rejected), the two-character escapes, and `\uXXXX`
with surrogate pairs combined and unpaired surrogates replaced by U+FFFD.
After the closing quote only white space may follow.  The fuel argument
only bounds the recursion; every step consumes at least one character, so
callers pass one more than the input length and the `0` case is never
reached. -/
def unquoteLoop : Nat → List Char → List Char → Option (List Char)
  | 0, _, _ => none
  | _ + 1, [], _ => none
  | fuel + 1, c :: cs, acc =>
    if c.toNat = 34 then
      if cs.dropWhile isJsonSpace = [] then some acc.reverse else none
    else if c.toNat = 92 then
      match cs with
      | [] => none
      | e :: rest =>
        if e.toNat = 34 ∨ e.toNat = 92 ∨ e.toNat = 47 then unquoteLoop fuel rest (e :: acc)
        else if e = 'b' then unquoteLoop fuel rest (Char.ofNat 8 :: acc)
        else if e = 'f' then unquoteLoop fuel rest (Char.ofNat 12 :: acc)
        else if e = 'n' then unquoteLoop fuel rest (Char.ofNat 10 :: acc)
        else if e = 'r' then unquoteLoop fuel rest (Char.ofNat 13 :: acc)
        else if e = 't' then unquoteLoop fuel rest (Char.ofNat 9 :: acc)
        else if e = 'u' then
          match rest with
          | h1 :: h2 :: h3 :: h4 :: rest2 =>
            match hexVal h1, hexVal h2, hexVal h3, hexVal h4 with
            | some a, some b, some c1, some d =>
              let code := a * 4096 + b * 256 + c1 * 16 + d
              if 55296 ≤ code ∧ code ≤ 56319 then
                match rest2 with
                | e2 :: u2 :: g1 :: g2 :: g3 :: g4 :: rest3 =>
                  if e2.toNat = 92 ∧ u2 = 'u' then
                    match hexVal g1, hexVal g2, hexVal g3, hexVal g4 with
                    | some a2, some b2, some c2, some d2 =>
                      let low := a2 * 4096 + b2 * 256 + c2 * 16 + d2
                      if 56320 ≤ low ∧ low ≤ 57343 then
                        unquoteLoop fuel rest3
                          (Char.ofNat (65536 + (code - 55296) * 1024 + (low - 56320)) :: acc)
                      else unquoteLoop fuel rest2 (Char.ofNat 65533 :: acc)
                    | _, _, _, _ => unquoteLoop fuel rest2 (Char.ofNat 65533 :: acc)
                  else unquoteLoop fuel rest2 (Char.ofNat 65533 :: acc)
                | _ => unquoteLoop fuel rest2 (Char.ofNat 65533 :: acc)
              else if 56320 ≤ code ∧ code ≤ 57343 then
                unquoteLoop fuel rest2 (Char.ofNat 65533 :: acc)
              else unquoteLoop fuel rest2 (Char.ofNat code :: acc)
            | _, _, _, _ => none
          | _ => none
        else none
    else if c.toNat < 32 then none
    else unquoteLoop fuel cs (c :: acc)

/-- Go `json.Unmarshal` of a JSON document into a `string`: skip leading
white space, require a string literal, decode its body. -/
def jsonUnquote (b : List Char) : Option (List Char) :=
  match b.dropWhile isJsonSpace with
  | c :: rest => if c.toNat = 34 then unquoteLoop (rest.length + 1) rest [] else none
  | [] => none

/-- Errors of `DerivationPath.UnmarshalJSON`: a JSON decoding error, or a
parse error from `ParseDerivationPath`. -/
inductive UnmarshalError where
  | jsonError : UnmarshalError
  | parseError : ParseError → UnmarshalError
deriving DecidableEq

/-- Go `DerivationPath.MarshalJSON`: `json.Marshal(path.String())`. -/
def DerivationPath.MarshalJSON (path : DerivationPath) : List Char :=
  jsonQuote (DerivationPath.String path)

/-- Go `DerivationPath.UnmarshalJSON`: decode a JSON string, then parse it
with no base path. -/
def DerivationPath.UnmarshalJSON (b : List Char) : Except UnmarshalError DerivationPath :=
  match jsonUnquote b with
  | none => .error .jsonError
  | some s => (ParseDerivationPath s []).mapError .parseError

/-- Go `DeriveKey`: walk the path from `master`, deriving one child per
index with the collaborator's `Child` operation (here an opaque
parameter), returning the first error. -/
def DeriveKey {K E : Type} (child : K → Nat → Except E K) (master : K) :
    DerivationPath → Except E K
  | [] => .ok master
  | v :: rest =>
    match child master v with
    | .error e => .error e
    | .ok k => DeriveKey child k rest

/-- Number of `Child` invocations `DeriveKey` performs (the invocation
count of the spec's stub-collaborator test, not part of the source). -/
def callCount {K E : Type} (child : K → Nat → Except E K) (master : K) :
    DerivationPath → Nat
  | [] => 0
  | v :: rest =>
    match child master v with
    | .error _ => 1
    | .ok k => 1 + callCount child k rest

/-- Stub collaborator for witnesses: fails exactly on index 99. -/
def childTest (k : Nat) (v : Nat) : Except Unit Nat :=
  if v = 99 then .error () else .ok (k + v)

/-- Value of a decimal digit string under a Horner accumulator, used to
relate the digit loop of `scanLoop` to the formatted number. -/
def digitsVal (acc : Nat) : List Char → Nat
  | [] => acc
  | c :: cs => digitsVal (acc * 10 + (c.toNat - 48)) cs

/-! ## Character and trimming lemmas -/

theorem dropWhile_eq_self_of_none {p : Char → Bool} (s : List Char)
    (h : ∀ c ∈ s, p c = false) : s.dropWhile p = s := by
  cases s with
  | nil => rfl
  | cons a t => simp [List.dropWhile, h a (by simp)]

theorem trimSpace_eq_self (s : List Char) (h : ∀ c ∈ s, isGoSpace c = false) :
    trimSpace s = s := by
  unfold trimSpace
  rw [dropWhile_eq_self_of_none s h, dropWhile_eq_self_of_none, List.reverse_reverse]
  intro c hc
  exact h c (List.mem_reverse.mp hc)

theorem isGoSpace_false_of (c : Char) (h : 34 ≤ c.toNat ∧ c.toNat ≤ 122) :
    isGoSpace c = false := by
  simp only [isGoSpace, decide_eq_false_iff_not]
  omega

/-! ## Splitting lemmas -/

theorem splitSlash_ne_nil (s : List Char) : splitSlash s ≠ [] := by
  cases s with
  | nil => simp [splitSlash]
  | cons c rest =>
    simp only [splitSlash]
    split
    · simp
    · split <;> simp

theorem splitSlash_no_slash (s : List Char) (h : ∀ c ∈ s, c ≠ '/') :
    splitSlash s = [s] := by
  induction s with
  | nil => rfl
  | cons a t ih =>
    have ha : a ≠ '/' := h a (by simp)
    simp only [splitSlash, if_neg ha]
    rw [ih (fun c hc => h c (by simp [hc]))]

theorem splitSlash_append (pre suf : List Char) (h : ∀ c ∈ pre, c ≠ '/') :
    splitSlash (pre ++ '/' :: suf) = pre :: splitSlash suf := by
  induction pre with
  | nil => simp [splitSlash]
  | cons a t ih =>
    have ha : a ≠ '/' := h a (by simp)
    simp only [List.cons_append, splitSlash, if_neg ha, List.append_eq]
    rw [ih (fun c hc => h c (by simp [hc]))]

theorem splitSlash_segsCat (bodies : List (List Char)) :
    ∀ pre, (∀ c ∈ pre, c ≠ '/') → (∀ b ∈ bodies, ∀ c ∈ b, c ≠ '/') →
      splitSlash (pre ++ segsCat bodies) = pre :: bodies := by
  induction bodies with
  | nil =>
    intro pre hp _
    simp [segsCat, splitSlash_no_slash pre hp]
  | cons b bs ih =>
    intro pre hp hb
    show splitSlash (pre ++ ('/' :: (b ++ segsCat bs))) = pre :: b :: bs
    rw [splitSlash_append pre _ hp,
      ih b (hb b (by simp)) (fun x hx => hb x (by simp [hx]))]

/-! ## Decimal formatting lemmas -/

theorem decDigit_toNat (d : Nat) (h : d < 10) : (decDigit d).toNat = 48 + d := by
  interval_cases d <;> rfl

theorem decRepr_digits (n : Nat) : ∀ c ∈ decRepr n, 48 ≤ c.toNat ∧ c.toNat ≤ 57 := by
  induction n using Nat.strong_induction_on with
  | _ n ih =>
    rw [decRepr]
    split
    · next h =>
      intro c hc
      simp only [List.mem_singleton] at hc
      subst hc
      have := decDigit_toNat n h
      omega
    · next h =>
      intro c hc
      rcases List.mem_append.mp hc with h1 | h2
      · exact ih (n / 10) (Nat.div_lt_self (by omega) (by omega)) c h1
      · simp only [List.mem_singleton] at h2
        subst h2
        have := decDigit_toNat (n % 10) (Nat.mod_lt _ (by omega))
        omega

theorem decRepr_ne_nil (n : Nat) : decRepr n ≠ [] := by
  rw [decRepr]
  split <;> simp

theorem decRepr_head (n : Nat) (hn : 1 ≤ n) :
    ∃ c cs, decRepr n = c :: cs ∧ 49 ≤ c.toNat ∧ c.toNat ≤ 57 := by
  induction n using Nat.strong_induction_on with
  | _ n ih =>
    rw [decRepr]
    split
    · next h =>
      refine ⟨decDigit n, [], rfl, ?_, ?_⟩ <;> · have := decDigit_toNat n h; omega
    · next h =>
      obtain ⟨c, cs, hrep, hc1, hc2⟩ :=
        ih (n / 10) (Nat.div_lt_self (by omega) (by omega)) (by omega)
      exact ⟨c, cs ++ [decDigit (n % 10)], by rw [hrep]; rfl, hc1, hc2⟩

theorem digitsVal_append (s t : List Char) :
    ∀ acc, digitsVal acc (s ++ t) = digitsVal (digitsVal acc s) t := by
  induction s with
  | nil => intro acc; rfl
  | cons c cs ih => intro acc; exact ih _

theorem digitsVal_decRepr (n : Nat) :
    ∀ acc, digitsVal acc (decRepr n) = acc * 10 ^ (decRepr n).length + n := by
  induction n using Nat.strong_induction_on with
  | _ n ih =>
    intro acc
    rw [decRepr]
    split
    · next h =>
      simp only [List.length_singleton, pow_one]
      show acc * 10 + ((decDigit n).toNat - 48) = acc * 10 + n
      rw [decDigit_toNat n h]
      omega
    · next h =>
      rw [digitsVal_append, ih (n / 10) (Nat.div_lt_self (by omega) (by omega))]
      simp only [List.length_append, List.length_singleton, pow_succ]
      show (acc * 10 ^ (decRepr (n / 10)).length + n / 10) * 10 +
        ((decDigit (n % 10)).toNat - 48) = _
      rw [decDigit_toNat (n % 10) (Nat.mod_lt _ (by omega)), ← mul_assoc]
      generalize acc * 10 ^ (decRepr (n / 10)).length = q
      omega

/-! ## Numeric scanning of decimal digit strings -/

theorem scanLoop_digits (s : List Char) :
    ∀ acc count prev, (∀ c ∈ s, 48 ≤ c.toNat ∧ c.toNat ≤ 57) →
      scanLoop 10 s acc count prev =
        some (digitsVal acc s, count + s.length, if s = [] then prev else '0', []) := by
  induction s with
  | nil => intro acc count prev _; rfl
  | cons c cs ih =>
    intro acc count prev h
    have hc := h c (by simp)
    have hu : c ≠ '_' := by
      intro e
      rw [e] at hc
      revert hc
      decide
    have hd : dval c = some (c.toNat - 48) := by
      unfold dval
      rw [if_pos hc]
    have hlt : c.toNat - 48 < 10 := by omega
    rw [scanLoop, if_neg hu, hd]
    show (if c.toNat - 48 < 10 then scanLoop 10 cs (acc * 10 + (c.toNat - 48)) (count + 1) '0'
      else some (acc, count, prev, c :: cs)) = _
    rw [if_pos hlt, ih _ _ _ (fun x hx => h x (by simp [hx]))]
    have h2 : digitsVal (acc * 10 + (c.toNat - 48)) cs = digitsVal acc (c :: cs) := rfl
    rw [h2, ite_self]
    have hne : (c :: cs : List Char) ≠ [] := by simp
    rw [if_neg hne]
    have h3 : count + 1 + cs.length = count + (c :: cs).length := by
      simp only [List.length_cons]
      omega
    rw [h3]

theorem setString0_decRepr (n : Nat) : setString0 (decRepr n) = some (n : Int) := by
  rcases Nat.eq_zero_or_pos n with h0 | hpos
  · subst h0
    have h : decRepr 0 = ['0'] := by rw [decRepr]; rfl
    rw [h]
    rfl
  · obtain ⟨c, cs, hrep, hc1, hc2⟩ := decRepr_head n hpos
    have hall : ∀ x ∈ c :: cs, 48 ≤ x.toNat ∧ x.toNat ≤ 57 := by
      rw [← hrep]
      exact decRepr_digits n
    have hcm : c ≠ '-' := by intro e; rw [e] at hc1; revert hc1; decide
    have hcp : c ≠ '+' := by intro e; rw [e] at hc1; revert hc1; decide
    have hc0 : c ≠ '0' := by intro e; rw [e] at hc1; revert hc1; decide
    have hval : digitsVal 0 (c :: cs) = n := by
      have hdv := digitsVal_decRepr n 0
      rw [hrep] at hdv
      simpa using hdv
    rw [hrep, setString0, if_neg hcm, if_neg hcp, natScan0.eq_def]
    show (if c = '0' then _ else scanFinish (scanLoop 10 (c :: cs) 0 0 '.')).map
      (fun n => (n : Int)) = _
    rw [if_neg hc0, scanLoop_digits _ _ _ _ hall]
    have hne : (c :: cs : List Char) ≠ [] := by simp
    rw [if_neg hne, scanFinish]
    have hcount : ¬(0 + (c :: cs).length = 0) := by simp
    rw [if_neg hcount]
    have hprev : ('0' : Char) ≠ '_' := by decide
    rw [if_neg hprev, if_pos rfl, hval]
    rfl

/-! ## Components of the canonical form parse back to their index -/

theorem compText_chars (v : Nat) :
    ∀ c ∈ compText v, c.toNat = 39 ∨ (48 ≤ c.toNat ∧ c.toNat ≤ 57) := by
  intro c hc
  unfold compText at hc
  split at hc
  · rcases List.mem_append.mp hc with h1 | h2
    · exact Or.inr (decRepr_digits _ c h1)
    · simp only [List.mem_singleton] at h2
      subst h2
      left
      rfl
  · exact Or.inr (decRepr_digits _ c hc)

theorem trimSpace_compText (v : Nat) : trimSpace (compText v) = compText v := by
  refine trimSpace_eq_self _ (fun c hc => ?_)
  rcases compText_chars v c hc with h | h <;> exact isGoSpace_false_of c (by omega)

theorem componentBody_compText_hardened (v : Nat) (hh : 2 ^ 31 ≤ v) :
    componentBody (compText v) = decRepr (v - 2 ^ 31) := by
  have hct : compText v = decRepr (v - 2 ^ 31) ++ [tick] := by
    unfold compText
    rw [if_pos hh]
  unfold componentBody
  rw [trimSpace_compText, hct, List.getLast?_concat, if_pos rfl, List.dropLast_concat]
  exact trimSpace_eq_self _
    (fun c hc => isGoSpace_false_of c (by have := decRepr_digits (v - 2 ^ 31) c hc; omega))

theorem componentHardened_compText_hardened (v : Nat) (hh : 2 ^ 31 ≤ v) :
    componentHardened (compText v) = true := by
  have hct : compText v = decRepr (v - 2 ^ 31) ++ [tick] := by
    unfold compText
    rw [if_pos hh]
  unfold componentHardened
  rw [trimSpace_compText, hct, List.getLast?_concat]
  simp

theorem componentHardened_compText_plain (v : Nat) (hh : v < 2 ^ 31) :
    componentHardened (compText v) = false := by
  have hct : compText v = decRepr v := by
    unfold compText
    rw [if_neg (by omega)]
  unfold componentHardened
  rw [trimSpace_compText, hct,
    List.getLast?_eq_getLast_of_ne_nil (decRepr_ne_nil v)]
  have hmem := List.getLast_mem (decRepr_ne_nil v)
  have hdig := decRepr_digits v _ hmem
  simp only [decide_eq_false_iff_not, Option.some.injEq]
  intro e
  rw [e] at hdig
  revert hdig
  decide

theorem componentBody_compText_plain (v : Nat) (hh : v < 2 ^ 31) :
    componentBody (compText v) = decRepr v := by
  have hct : compText v = decRepr v := by
    unfold compText
    rw [if_neg (by omega)]
  have hhard := componentHardened_compText_plain v hh
  unfold componentHardened at hhard
  rw [decide_eq_false_iff_not] at hhard
  unfold componentBody
  rw [if_neg hhard, trimSpace_compText, hct]

theorem parseComponent_compText (v : Nat) (hv : v < 2 ^ 32) :
    parseComponent (compText v) = .ok v := by
  by_cases hh : 2 ^ 31 ≤ v
  · have hhard := componentHardened_compText_hardened v hh
    have hbody := componentBody_compText_hardened v hh
    unfold parseComponent
    rw [hhard, hbody, setString0_decRepr]
    simp only [if_true]
    rw [if_neg (by push_cast; omega)]
    simp only [Except.ok.injEq]
    omega
  · have hhard := componentHardened_compText_plain v (by omega)
    have hbody := componentBody_compText_plain v (by omega)
    unfold parseComponent
    rw [hhard, hbody, setString0_decRepr]
    simp only [Bool.false_eq_true, if_false]
    rw [if_neg (by push_cast; omega)]
    simp only [Except.ok.injEq]
    omega

theorem parseComponents_compText (p : List Nat) (hp : ∀ v ∈ p, v < 2 ^ 32) :
    parseComponents (p.map compText) = .ok p := by
  induction p with
  | nil => rfl
  | cons v t ih =>
    show parseComponents (compText v :: t.map compText) = _
    rw [parseComponents, parseComponent_compText v (hp v (by simp)),
      ih (fun x hx => hp x (by simp [hx]))]

/-! ## Shape of successful parses -/

theorem parseComponent_eq_none (comp : List Char)
    (hss : setString0 (componentBody comp) = none) :
    parseComponent comp = .error (.invalidComponent (componentBody comp)) := by
  unfold parseComponent
  rw [hss]

theorem parseComponent_eq_some (comp : List Char) (w : Int)
    (hss : setString0 (componentBody comp) = some w) :
    parseComponent comp =
      if w < 0 ∨ ((2 ^ 32 - 1 - (if componentHardened comp then 2 ^ 31 else 0) : Nat) : Int) < w then
        .error (.componentOutOfRange w (2 ^ 32 - 1 - (if componentHardened comp then 2 ^ 31 else 0))
          (decide ((if componentHardened comp then 2 ^ 31 else (0 : Nat)) ≠ 0)))
      else
        .ok (((if componentHardened comp then 2 ^ 31 else 0) + w.toNat % 2 ^ 64 % 2 ^ 32) % 2 ^ 32) := by
  unfold parseComponent
  rw [hss]

theorem classifyParse_nil (base : List DerivationPath) :
    classifyParse [] base = .error .emptyPath := rfl

theorem classifyParse_cons (c0 : List Char) (rest : List (List Char))
    (base : List DerivationPath) :
    classifyParse (c0 :: rest) base =
      (if trimSpace c0 = [] then Except.error ParseError.ambiguousPath
       else if trimSpace c0 = ['m'] then appendComponents [] rest
       else
         match base with
         | b :: _ => appendComponents b (c0 :: rest)
         | [] => Except.error ParseError.missingBasePath) := rfl

theorem parseComponent_ok_shape (comp : List Char) (v : Nat)
    (h : parseComponent comp = .ok v) :
    ∃ w : Int, setString0 (componentBody comp) = some w ∧ 0 ≤ w ∧
      w ≤ ((2 ^ 32 - 1 - (if componentHardened comp then 2 ^ 31 else 0) : Nat) : Int) ∧
      v = ((if componentHardened comp then 2 ^ 31 else 0) + w.toNat % 2 ^ 64 % 2 ^ 32) % 2 ^ 32 := by
  rcases hss : setString0 (componentBody comp) with _ | w
  · rw [parseComponent_eq_none comp hss] at h
    exact Except.noConfusion h
  · rw [parseComponent_eq_some comp w hss] at h
    by_cases hcond : w < 0 ∨
        ((2 ^ 32 - 1 - (if componentHardened comp then 2 ^ 31 else 0) : Nat) : Int) < w
    · rw [if_pos hcond] at h
      exact Except.noConfusion h
    · rw [if_neg hcond] at h
      push_neg at hcond
      exact ⟨w, rfl, hcond.1, hcond.2, (Except.ok.inj h).symm⟩

theorem parseComponent_lt (comp : List Char) (v : Nat) (h : parseComponent comp = .ok v) :
    v < 2 ^ 32 := by
  obtain ⟨w, _, _, _, hv⟩ := parseComponent_ok_shape comp v h
  rw [hv]
  exact Nat.mod_lt _ (by norm_num)

theorem parseComponents_ok (cs : List (List Char)) :
    ∀ vs, parseComponents cs = .ok vs →
      vs.length = cs.length ∧ ∀ v ∈ vs, v < 2 ^ 32 := by
  induction cs with
  | nil =>
    intro vs h
    have hv := Except.ok.inj h
    subst hv
    simp
  | cons c t ih =>
    intro vs h
    rcases hw : parseComponent c with e | w
    · have heq : parseComponents (c :: t) = .error e := by rw [parseComponents, hw]
      rw [heq] at h
      exact Except.noConfusion h
    · rcases hws : parseComponents t with e2 | ws
      · have heq : parseComponents (c :: t) = .error e2 := by rw [parseComponents, hw, hws]
        rw [heq] at h
        exact Except.noConfusion h
      · have heq : parseComponents (c :: t) = .ok (w :: ws) := by rw [parseComponents, hw, hws]
        rw [heq] at h
        have hv := Except.ok.inj h
        subst hv
        obtain ⟨hlen, hb⟩ := ih ws hws
        refine ⟨by simp [hlen], ?_⟩
        intro v hv
        rcases List.mem_cons.mp hv with rfl | hv2
        · exact parseComponent_lt c v hw
        · exact hb v hv2

theorem appendComponents_ok (result : DerivationPath) (comps : List (List Char))
    (p : DerivationPath) (h : appendComponents result comps = .ok p) :
    comps ≠ [] ∧ ∃ vs, parseComponents comps = .ok vs ∧ p = result ++ vs := by
  rcases comps with _ | ⟨c, t⟩
  · rw [appendComponents, if_pos rfl] at h
    exact Except.noConfusion h
  · rw [appendComponents, if_neg (by simp)] at h
    rcases hpc : parseComponents (c :: t) with e | vs <;> rw [hpc] at h
    · exact Except.noConfusion h
    · exact ⟨by simp, vs, rfl, (Except.ok.inj h).symm⟩

theorem parse_ok_structure (s : List Char) (base : List DerivationPath) (p : DerivationPath)
    (h : ParseDerivationPath s base = .ok p) :
    ∃ pre cs vs, (pre = [] ∨ ∃ rest, base = pre :: rest) ∧ cs ≠ [] ∧
      parseComponents cs = .ok vs ∧ p = pre ++ vs := by
  rcases hs : splitSlash s with _ | ⟨c0, rest⟩
  · have heq : ParseDerivationPath s base = .error .emptyPath := by
      unfold ParseDerivationPath
      rw [hs, classifyParse_nil]
    rw [heq] at h
    exact Except.noConfusion h
  · by_cases h1 : trimSpace c0 = []
    · have heq : ParseDerivationPath s base = .error .ambiguousPath := by
        unfold ParseDerivationPath
        rw [hs, classifyParse_cons, if_pos h1]
      rw [heq] at h
      exact Except.noConfusion h
    · by_cases h2 : trimSpace c0 = ['m']
      · have heq : ParseDerivationPath s base = appendComponents [] rest := by
          unfold ParseDerivationPath
          rw [hs, classifyParse_cons, if_neg h1, if_pos h2]
        rw [heq] at h
        obtain ⟨hcs, vs, hvs, hp⟩ := appendComponents_ok [] rest p h
        exact ⟨[], rest, vs, Or.inl rfl, hcs, hvs, hp⟩
      · rcases base with _ | ⟨b, rest2⟩
        · have heq : ParseDerivationPath s [] = .error .missingBasePath := by
            unfold ParseDerivationPath
            rw [hs, classifyParse_cons, if_neg h1, if_neg h2]
          rw [heq] at h
          exact Except.noConfusion h
        · have heq : ParseDerivationPath s (b :: rest2) = appendComponents b (c0 :: rest) := by
            unfold ParseDerivationPath
            rw [hs, classifyParse_cons, if_neg h1, if_neg h2]
          rw [heq] at h
          obtain ⟨hcs, vs, hvs, hp⟩ := appendComponents_ok b (c0 :: rest) p h
          exact ⟨b, c0 :: rest, vs, Or.inr ⟨rest2, rfl⟩, hcs, hvs, hp⟩

theorem parse_ok_bound (s : List Char) (base : List DerivationPath) (p : DerivationPath)
    (hb : ∀ q ∈ base, ∀ v ∈ q, v < 2 ^ 32)
    (h : ParseDerivationPath s base = .ok p) :
    p ≠ [] ∧ ∀ v ∈ p, v < 2 ^ 32 := by
  obtain ⟨pre, cs, vs, hpre, hcs, hvs, rfl⟩ := parse_ok_structure s base p h
  obtain ⟨hlen, hbound⟩ := parseComponents_ok cs vs hvs
  have hvs_ne : vs ≠ [] := by
    intro e
    subst e
    exact hcs (List.length_eq_zero.mp hlen.symm)
  constructor
  · intro e
    exact hvs_ne (List.append_eq_nil.mp e).2
  · intro v hv
    rcases List.mem_append.mp hv with h1 | h2
    · rcases hpre with rfl | ⟨rest, rfl⟩
      · cases h1
      · exact hb pre (by simp) v h1
    · exact hbound v h2

/-! ## Round trip of the canonical form -/

theorem parse_String (p : DerivationPath) (hne : p ≠ []) (hp : ∀ v ∈ p, v < 2 ^ 32) :
    ParseDerivationPath (DerivationPath.String p) [] = .ok p := by
  have hbodies : ∀ b ∈ p.map compText, ∀ c ∈ b, c ≠ '/' := by
    intro b hb c hc
    obtain ⟨v, hv, rfl⟩ := List.mem_map.mp hb
    have hchar := compText_chars v c hc
    intro e
    rw [e] at hchar
    revert hchar
    decide
  have hsplit : splitSlash (DerivationPath.String p) = ['m'] :: p.map compText :=
    splitSlash_segsCat (p.map compText) ['m'] (by decide) hbodies
  unfold ParseDerivationPath
  rw [hsplit, classifyParse_cons, if_neg (by decide), if_pos (by decide), appendComponents,
    if_neg (by simpa using hne), parseComponents_compText p hp]
  simp [Except.map]

/-! ## JSON string round trip over the canonical path alphabet -/

theorem isJsonSpace_false_of (c : Char) (h : 34 ≤ c.toNat ∧ c.toNat ≤ 122) :
    isJsonSpace c = false := by
  simp only [isJsonSpace, Bool.or_eq_false_iff, decide_eq_false_iff_not]
  omega

theorem escapeChar_plain (c : Char)
    (h : (39 ≤ c.toNat ∧ c.toNat ≤ 57) ∨ c.toNat = 109) :
    escapeChar c = [c] := by
  simp only [escapeChar]
  rw [if_neg (by omega), if_neg (by omega), if_neg (by omega), if_neg (by omega),
    if_neg (by omega), if_neg (by omega), if_neg (by omega)]

theorem escAll_plain (s : List Char)
    (h : ∀ c ∈ s, (39 ≤ c.toNat ∧ c.toNat ≤ 57) ∨ c.toNat = 109) :
    escAll s = s := by
  induction s with
  | nil => rfl
  | cons c cs ih =>
    rw [escAll, escapeChar_plain c (h c (by simp)), ih (fun x hx => h x (by simp [hx]))]
    simp

theorem unquoteLoop_plain_step (fuel : Nat) (c : Char) (cs acc : List Char)
    (h1 : c.toNat ≠ 34) (h2 : c.toNat ≠ 92) (h3 : ¬c.toNat < 32) :
    unquoteLoop (fuel + 1) (c :: cs) acc = unquoteLoop fuel cs (c :: acc) := by
  rw [unquoteLoop.eq_def]
  show (if c.toNat = 34 then _ else if c.toNat = 92 then _
    else if c.toNat < 32 then none else unquoteLoop fuel cs (c :: acc)) = _
  rw [if_neg h1, if_neg h2, if_neg h3]

theorem unquoteLoop_safe (s : List Char) :
    ∀ fuel acc, s.length < fuel →
      (∀ c ∈ s, (39 ≤ c.toNat ∧ c.toNat ≤ 57) ∨ c.toNat = 109) →
      unquoteLoop fuel (s ++ [quoteChar]) acc = some (acc.reverse ++ s) := by
  induction s with
  | nil =>
    intro fuel acc hf _
    rcases fuel with _ | fuel
    · exact absurd hf (by omega)
    · show unquoteLoop (fuel + 1) [quoteChar] acc = some (acc.reverse ++ [])
      have hstep : unquoteLoop (fuel + 1) [quoteChar] acc = some acc.reverse := rfl
      rw [hstep]
      simp
  | cons c cs ih =>
    intro fuel acc hf h
    rcases fuel with _ | fuel
    · exact absurd hf (by omega)
    · have hc := h c (by simp)
      rw [List.cons_append,
        unquoteLoop_plain_step fuel c _ acc (by omega) (by omega) (by omega),
        ih fuel (c :: acc) (by simp only [List.length_cons] at hf ⊢; omega)
          (fun x hx => h x (by simp [hx]))]
      simp

theorem jsonUnquote_jsonQuote (s : List Char)
    (h : ∀ c ∈ s, (39 ≤ c.toNat ∧ c.toNat ≤ 57) ∨ c.toNat = 109) :
    jsonUnquote (jsonQuote s) = some s := by
  have hesc : escAll s = s := escAll_plain s h
  have hq : jsonQuote s = quoteChar :: (s ++ [quoteChar]) := by
    unfold jsonQuote
    rw [hesc]
    rfl
  have hdw : (jsonQuote s).dropWhile isJsonSpace = quoteChar :: (s ++ [quoteChar]) := by
    rw [hq]
    refine dropWhile_eq_self_of_none _ (fun c hc => ?_)
    rcases List.mem_cons.mp hc with rfl | hc2
    · rfl
    · rcases List.mem_append.mp hc2 with h1 | h2
      · rcases h c h1 with hr | hr <;> exact isJsonSpace_false_of c (by omega)
      · simp only [List.mem_singleton] at h2
        subst h2
        rfl
  unfold jsonUnquote
  rw [hdw]
  show (if quoteChar.toNat = 34 then
    unquoteLoop ((s ++ [quoteChar]).length + 1) (s ++ [quoteChar]) [] else none) = some s
  rw [if_pos (show quoteChar.toNat = 34 from rfl),
    unquoteLoop_safe s _ [] (by simp only [List.length_append, List.length_singleton]; omega) h]
  simp

theorem segsCat_chars (bs : List (List Char))
    (hb : ∀ b ∈ bs, ∀ c ∈ b, 39 ≤ c.toNat ∧ c.toNat ≤ 57) :
    ∀ c ∈ segsCat bs, 39 ≤ c.toNat ∧ c.toNat ≤ 57 := by
  induction bs with
  | nil => intro c hc; cases hc
  | cons b t ih =>
    intro c hc
    rw [segsCat] at hc
    rcases List.mem_cons.mp hc with rfl | hc2
    · exact ⟨by decide, by decide⟩
    · rcases List.mem_append.mp hc2 with h1 | h2
      · exact hb b (by simp) c h1
      · exact ih (fun x hx => hb x (by simp [hx])) c h2

theorem String_chars (p : DerivationPath) :
    ∀ c ∈ DerivationPath.String p, (39 ≤ c.toNat ∧ c.toNat ≤ 57) ∨ c.toNat = 109 := by
  intro c hc
  unfold DerivationPath.String at hc
  rcases List.mem_cons.mp hc with rfl | hc2
  · right
    rfl
  · left
    refine segsCat_chars (p.map compText) ?_ c hc2
    intro b hb x hx
    obtain ⟨v, hv, rfl⟩ := List.mem_map.mp hb
    rcases compText_chars v x hx with h1 | h1 <;> omega

theorem UnmarshalJSON_of_unquote (b s : List Char) (hq : jsonUnquote b = some s) :
    DerivationPath.UnmarshalJSON b = (ParseDerivationPath s []).mapError .parseError := by
  unfold DerivationPath.UnmarshalJSON
  rw [hq]

/-! ## DeriveKey as a fail-fast left fold -/

theorem foldl_error {K E : Type} (child : K → Nat → Except E K) (e : E) :
    ∀ t : List Nat,
      t.foldl (fun (acc : Except E K) v => acc.bind (fun k => child k v)) (.error e) =
        .error e := by
  intro t
  induction t with
  | nil => rfl
  | cons v t ih => exact ih

theorem DeriveKey_foldl {K E : Type} (child : K → Nat → Except E K) (p : DerivationPath) :
    ∀ master, DeriveKey child master p =
      p.foldl (fun (acc : Except E K) v => acc.bind (fun k => child k v)) (.ok master) := by
  induction p with
  | nil => intro master; rfl
  | cons v t ih =>
    intro master
    rcases hc : child master v with e | k
    · have hl : DeriveKey child master (v :: t) = .error e := by rw [DeriveKey, hc]
      have hr : (v :: t).foldl (fun (acc : Except E K) x => acc.bind (fun k => child k x))
          (.ok master) = .error e := by
        rw [List.foldl_cons]
        show List.foldl _ (child master v) t = .error e
        rw [hc]
        exact foldl_error child e t
      rw [hl, hr]
    · have hl : DeriveKey child master (v :: t) = DeriveKey child k t := by rw [DeriveKey, hc]
      have hr : (v :: t).foldl (fun (acc : Except E K) x => acc.bind (fun kk => child kk x))
          (.ok master) =
          t.foldl (fun (acc : Except E K) x => acc.bind (fun kk => child kk x)) (.ok k) := by
        rw [List.foldl_cons]
        show List.foldl _ (child master v) t = _
        rw [hc]
      rw [hl, hr]
      exact ih k

theorem DeriveKey_take_fail {K E : Type} (child : K → Nat → Except E K) (p : DerivationPath) :
    ∀ master (j : Nat) (hj : j < p.length) (kj : K) (e : E),
      DeriveKey child master (p.take j) = .ok kj →
      child kj (p.get ⟨j, hj⟩) = .error e →
      DeriveKey child master p = .error e ∧ callCount child master p = j + 1 := by
  induction p with
  | nil => intro master j hj; exact absurd hj (by simp)
  | cons v t ih =>
    intro master j hj kj e hok hfail
    cases j with
    | zero =>
      have hkj : master = kj := Except.ok.inj hok
      subst hkj
      have hv : (v :: t).get ⟨0, hj⟩ = v := rfl
      rw [hv] at hfail
      constructor
      · rw [DeriveKey, hfail]
      · rw [callCount, hfail]
    | succ j2 =>
      rcases hc : child master v with e1 | k1
      · have heq : DeriveKey child master ((v :: t).take (j2 + 1)) = .error e1 := by
          rw [List.take_succ_cons, DeriveKey, hc]
        rw [heq] at hok
        exact Except.noConfusion hok
      · have hok2 : DeriveKey child k1 (t.take j2) = .ok kj := by
          have heq : DeriveKey child master ((v :: t).take (j2 + 1)) =
              DeriveKey child k1 (t.take j2) := by
            rw [List.take_succ_cons, DeriveKey, hc]
          rw [heq] at hok
          exact hok
        have hj2 : j2 < t.length := by
          simp only [List.length_cons] at hj
          omega
        have hget : (v :: t).get ⟨j2 + 1, hj⟩ = t.get ⟨j2, hj2⟩ := rfl
        rw [hget] at hfail
        obtain ⟨h1, h2⟩ := ih k1 j2 hj2 kj e hok2 hfail
        constructor
        · rw [DeriveKey, hc]
          exact h1
        · have hcc : callCount child master (v :: t) = 1 + callCount child k1 t := by
            rw [callCount, hc]
          rw [hcc, h2]
          omega

theorem DeriveKey_ok_count {K E : Type} (child : K → Nat → Except E K) (p : DerivationPath) :
    ∀ master (k : K), DeriveKey child master p = .ok k →
      callCount child master p = p.length := by
  induction p with
  | nil => intro master k _; rfl
  | cons v t ih =>
    intro master k h
    rcases hc : child master v with e | k1
    · have heq : DeriveKey child master (v :: t) = .error e := by rw [DeriveKey, hc]
      rw [heq] at h
      exact Except.noConfusion h
    · have heq : DeriveKey child master (v :: t) = DeriveKey child k1 t := by
        rw [DeriveKey, hc]
      rw [heq] at h
      have hcc : callCount child master (v :: t) = 1 + callCount child k1 t := by
        rw [callCount, hc]
      rw [hcc, ih k1 k h]
      simp only [List.length_cons]
      omega

/-! ## Claims -/

/-- C1: string round trip — every `DerivationPath` produced by a successful
`ParseDerivationPath` call (with base paths holding `uint32` values, as the
Go type guarantees) parses back from its canonical `String` form with no
base path to an equal path, so `String` is a left inverse of parsing on
parse outputs. -/
theorem claim_C1_string_round_trip (s : List Char) (base : List DerivationPath)
    (p : DerivationPath) (hb : ∀ q ∈ base, ∀ v ∈ q, v < 2 ^ 32)
    (h : ParseDerivationPath s base = .ok p) :
    ParseDerivationPath (DerivationPath.String p) [] = .ok p := by
  obtain ⟨hne, hlt⟩ := parse_ok_bound s base p hb h
  exact parse_String p hne hlt

/-- Witness for C1 at the concrete parse of `m/44'`. -/
theorem claim_C1_witness :
    ParseDerivationPath ("m/44".data ++ [tick]) [] = .ok [2147483692] ∧
    ParseDerivationPath (DerivationPath.String [2147483692]) [] = .ok [2147483692] :=
  ⟨rfl, claim_C1_string_round_trip ("m/44".data ++ [tick]) [] [2147483692]
    (by intro q hq; cases hq) rfl⟩

/-- C2 counterexample: the non-hardened component `2147483648` (which is
`2^31`, exceeding `2^31 - 1`) is accepted by `ParseDerivationPath`, and the
stored index has the hardened high bit set — it is the very same index the
hardened component `0'` produces. -/
theorem claim_C2_counterexample :
    ParseDerivationPath "m/2147483648".data [] = .ok [2147483648] ∧
    componentHardened "2147483648".data = false ∧
    2 ^ 31 - 1 < 2147483648 ∧ 2 ^ 31 ≤ 2147483648 ∧
    ParseDerivationPath ("m/0".data ++ [tick]) [] = .ok [2147483648] :=
  ⟨rfl, rfl, by norm_num, by norm_num, rfl⟩

/-- C2 amended: parsing enforces a 32-bit bound on every component; the
31-bit bound on the numeric value holds only for hardened components
(whose index then lies in the hardened range), while a non-hardened
component may be as large as `2^32 - 1` and can therefore set the hardened
high bit. -/
theorem claim_C2_31bit_hardened_only (comp : List Char) (v : Nat)
    (h : parseComponent comp = .ok v) :
    v < 2 ^ 32 ∧
    (componentHardened comp = true → 2 ^ 31 ≤ v ∧ v - 2 ^ 31 ≤ 2 ^ 31 - 1) := by
  obtain ⟨w, hss, h0, hle, hv⟩ := parseComponent_ok_shape comp v h
  constructor
  · rw [hv]
    exact Nat.mod_lt _ (by norm_num)
  · intro hh
    simp only [hh, eq_self_iff_true, if_true] at hle hv
    constructor <;> omega

/-- Witness for C2's amended claim at the hardened component `44'`. -/
theorem claim_C2_witness :
    parseComponent ("44".data ++ [tick]) = .ok 2147483692 ∧
    2147483692 < 2 ^ 32 ∧ 2 ^ 31 ≤ 2147483692 :=
  ⟨rfl, (claim_C2_31bit_hardened_only ("44".data ++ [tick]) 2147483692 rfl).1,
    ((claim_C2_31bit_hardened_only ("44".data ++ [tick]) 2147483692 rfl).2 rfl).1⟩

/-- C3: `DeriveKey` is the strict fail-fast left fold of the single-step
`Child` operation (an opaque collaborator parameter): the empty path
returns the master unchanged, the result is the left fold over `Except`,
a failure at step `j` (0-based) yields that step's error after exactly
`j + 1` invocations, and a success performs exactly one invocation per
index. -/
theorem claim_C3_derive_fold {K E : Type} (child : K → Nat → Except E K) (master : K)
    (p : DerivationPath) :
    DeriveKey child master [] = .ok master ∧
    DeriveKey child master p =
      p.foldl (fun (acc : Except E K) v => acc.bind (fun k => child k v)) (.ok master) ∧
    (∀ (j : Nat) (hj : j < p.length) (kj : K) (e : E),
      DeriveKey child master (p.take j) = .ok kj →
      child kj (p.get ⟨j, hj⟩) = .error e →
      DeriveKey child master p = .error e ∧ callCount child master p = j + 1) ∧
    (∀ k, DeriveKey child master p = .ok k → callCount child master p = p.length) :=
  ⟨rfl, DeriveKey_foldl child p master,
    fun j hj kj e h1 h2 => DeriveKey_take_fail child p master j hj kj e h1 h2,
    fun k h => DeriveKey_ok_count child p master k h⟩

/-- Witness for C3: the stub collaborator failing on the third of five
indices is invoked exactly 3 times, as in the spec's test. -/
theorem claim_C3_witness :
    DeriveKey childTest 0 [1, 2, 99, 4, 5] = .error () ∧
    callCount childTest 0 [1, 2, 99, 4, 5] = 3 ∧
    DeriveKey childTest 0 [] = .ok 0 := by
  have h := claim_C3_derive_fold childTest 0 [1, 2, 99, 4, 5]
  obtain ⟨he, hc⟩ := h.2.2.1 2 (by norm_num) 3 () rfl rfl
  exact ⟨he, hc, h.1⟩

/-- C4: range enforcement — `m/4294967296` and `m/2147483648'` fail with
the out-of-range error carrying the ceilings `0xFFFFFFFF` and `0x7FFFFFFF`
respectively, and in general a component whose numeric text parses to `w`
fails with the out-of-range error exactly when `w` is negative or exceeds
`2^32 - 1 - offset` for its hardened offset. -/
theorem claim_C4_range (comp : List Char) (w : Int)
    (hss : setString0 (componentBody comp) = some w) :
    ParseDerivationPath "m/4294967296".data [] =
      .error (.componentOutOfRange 4294967296 4294967295 false) ∧
    ParseDerivationPath ("m/2147483648".data ++ [tick]) [] =
      .error (.componentOutOfRange 2147483648 2147483647 true) ∧
    ((w < 0 ∨ ((2 ^ 32 - 1 - (if componentHardened comp then 2 ^ 31 else 0) : Nat) : Int) < w) ↔
      parseComponent comp =
        .error (.componentOutOfRange w
          (2 ^ 32 - 1 - (if componentHardened comp then 2 ^ 31 else 0))
          (decide ((if componentHardened comp then 2 ^ 31 else (0 : Nat)) ≠ 0)))) := by
  refine ⟨rfl, rfl, ?_, ?_⟩
  · intro hcond
    rw [parseComponent_eq_some comp w hss, if_pos hcond]
  · intro h
    by_contra hcond
    rw [parseComponent_eq_some comp w hss, if_neg hcond] at h
    exact Except.noConfusion h

/-- Witness for C4 at the component text `4294967296`. -/
theorem claim_C4_witness :
    setString0 (componentBody "4294967296".data) = some 4294967296 ∧
    parseComponent "4294967296".data =
      .error (.componentOutOfRange 4294967296 4294967295 false) := by
  have h := claim_C4_range "4294967296".data 4294967296 rfl
  exact ⟨rfl, h.2.2.mp (by right; decide)⟩

/-- C5 counterexample: parsing `m/` fails with `invalidComponent` on the
empty final segment — a third error, distinct from both `ambiguousPath`
and `emptyPath`, contradicting the claim's error attribution. -/
theorem claim_C5_counterexample :
    ParseDerivationPath "m/".data [] = .error (.invalidComponent []) ∧
    (ParseError.invalidComponent [] = ParseError.ambiguousPath ↔ False) ∧
    (ParseError.invalidComponent [] = ParseError.emptyPath ↔ False) :=
  ⟨rfl, by simp, by simp⟩

/-- C5 amended: parsing `/m` fails with `ambiguousPath`, while parsing
`m/` fails with `invalidComponent` on the empty final segment (the empty
segment reaches the numeric parser); neither succeeds, and in particular
neither produces an empty path. -/
theorem claim_C5_amended :
    ParseDerivationPath "/m".data [] = .error .ambiguousPath ∧
    ParseDerivationPath "m/".data [] = .error (.invalidComponent []) :=
  ⟨rfl, rfl⟩

/-- C6: relative-path resolution — parsing `44'/60'` against the empty
absolute base (the path that the absolute root `m` denotes; parsing `m`
itself fails with `emptyPath`, as the second conjunct shows) yields
`[0x8000002C, 0x8000003C]`. -/
theorem claim_C6_relative :
    ParseDerivationPath ("44".data ++ [tick] ++ "/60".data ++ [tick]) [[]] =
      .ok [2147483692, 2147483708] ∧
    ParseDerivationPath "m".data [] = .error .emptyPath :=
  ⟨rfl, rfl⟩

/-- C7 counterexample: for the empty `DerivationPath` the JSON round trip
fails — it marshals to the JSON string `"m"`, whose text does not
re-parse (`emptyPath`), so unmarshalling does not return the empty path. -/
theorem claim_C7_counterexample :
    DerivationPath.UnmarshalJSON (DerivationPath.MarshalJSON ([] : DerivationPath)) =
      .error (.parseError .emptyPath) := rfl

/-- C7 amended: for every non-empty `DerivationPath` (of `uint32` values,
as the Go type guarantees; non-empty is exactly what parse outputs are),
unmarshalling the JSON marshalling yields an equal path; unmarshalling is
parsing with no base path, so a base-relative JSON string such as `"44'"`
fails with the parser's `missingBasePath` error. -/
theorem claim_C7_json_round_trip (p : DerivationPath) (hne : p ≠ [])
    (hp : ∀ v ∈ p, v < 2 ^ 32) :
    DerivationPath.UnmarshalJSON (DerivationPath.MarshalJSON p) = .ok p ∧
    DerivationPath.UnmarshalJSON (jsonQuote ("44".data ++ [tick])) =
      .error (.parseError .missingBasePath) := by
  refine ⟨?_, rfl⟩
  have hq : jsonUnquote (DerivationPath.MarshalJSON p) = some (DerivationPath.String p) :=
    jsonUnquote_jsonQuote _ (String_chars p)
  rw [UnmarshalJSON_of_unquote _ _ hq, parse_String p hne hp]
  rfl

/-- Witness for C7's amended claim at the path `[0x8000002C]`. -/
theorem claim_C7_witness :
    DerivationPath.UnmarshalJSON (DerivationPath.MarshalJSON [2147483692]) =
      .ok [2147483692] :=
  (claim_C7_json_round_trip [2147483692] (by simp)
    (by intro v hv; simp only [List.mem_singleton] at hv; omega)).1

/-- C8: multi-base parsing — `m/0x2C'` and `m/44'` produce the identical
hardened index; hexadecimal (`0x`/`0X`), leading-zero octal and decimal
components all parse, and unparseable text fails with
`invalidComponent`. -/
theorem claim_C8_multi_base :
    ParseDerivationPath ("m/0x2C".data ++ [tick]) [] = .ok [2147483692] ∧
    ParseDerivationPath ("m/44".data ++ [tick]) [] = .ok [2147483692] ∧
    ParseDerivationPath "m/0X2c".data [] = .ok [44] ∧
    ParseDerivationPath "m/010".data [] = .ok [8] ∧
    ParseDerivationPath "m/10".data [] = .ok [10] ∧
    ParseDerivationPath "m/09".data [] = .error (.invalidComponent "09".data) ∧
    ParseDerivationPath "m/xyz".data [] = .error (.invalidComponent "xyz".data) :=
  ⟨rfl, rfl, rfl, rfl, rfl, rfl, rfl⟩

/-- C9: splitting any input on `/` yields at least one component, so the
zero-components `emptyPath` branch of the classification switch is
unreachable; in particular the empty string parses to the `ambiguousPath`
error (its single split component is empty), not to `emptyPath`. -/
theorem claim_C9_split_nonempty :
    (∀ s : List Char, ∃ c0 rest, splitSlash s = c0 :: rest) ∧
    ParseDerivationPath "".data [] = .error .ambiguousPath := by
  refine ⟨fun s => ?_, rfl⟩
  rcases hs : splitSlash s with _ | ⟨c0, rest⟩
  · exact absurd hs (splitSlash_ne_nil s)
  · exact ⟨c0, rest, rfl⟩

/-- C10: every successful `ParseDerivationPath` result contains at least
one index, for any input string and base path; the empty sequence is never
a parse result, and its canonical form `m` does not re-parse (it fails
with `emptyPath`). -/
theorem claim_C10_parse_nonempty (s : List Char) (base : List DerivationPath)
    (p : DerivationPath) (h : ParseDerivationPath s base = .ok p) :
    (∃ v vs, p = v :: vs) ∧
    ParseDerivationPath (DerivationPath.String []) [] = .error .emptyPath := by
  refine ⟨?_, rfl⟩
  obtain ⟨pre, cs, vs, hpre, hcs, hvs, rfl⟩ := parse_ok_structure s base p h
  obtain ⟨hlen, _⟩ := parseComponents_ok cs vs hvs
  have hvs_ne : vs ≠ [] := by
    intro e
    subst e
    exact hcs (List.length_eq_zero.mp hlen.symm)
  have hne : pre ++ vs ≠ [] := by
    intro e
    exact hvs_ne (List.append_eq_nil.mp e).2
  exact List.exists_cons_of_ne_nil hne

/-- Witness for C10 at the concrete parse of `m/5`. -/
theorem claim_C10_witness :
    (∃ v vs, ([5] : DerivationPath) = v :: vs) ∧
    ParseDerivationPath (DerivationPath.String []) [] = .error .emptyPath :=
  claim_C10_parse_nonempty "m/5".data [] [5] rfl
